import Mathlib

/-
Verification of the DCD (Device Configuration Data) command serializer.

The model below is a shallow embedding of the serializer: the command data
model, the per-record byte layout helpers, the grouping of consecutive
compatible write commands, and the two-pass `serialize` routine.  Machine
integers (u8/u16/u32/usize) are modelled as `Nat` with explicit bounds and
`% 256`-style byte extraction where the source truncates.  The fallible
parts are modelled explicitly: the `assert!` inside `Write::byte_len` is an
`Option` (with `none` standing for a panic), and `serialize` returns a
`SerResult` recording the bytes written to the (infallible, in-memory) sink
together with the outcome: success, the oversized-block input-validation
error, or a panic.
-/

namespace ImxrtDcd

/-- Maximal value of the 64-bit `usize` used by `group_key`. -/
def usizeMax : Nat := 2 ^ 64 - 1

/-- Big-endian byte list of a 16-bit value (`u16::to_be_bytes`). -/
def u16be (n : Nat) : List Nat := [n / 256 % 256, n % 256]

/-- Big-endian byte list of a 32-bit value (`u32::to_be_bytes`). -/
def u32be (n : Nat) : List Nat :=
  [n / 16777216 % 256, n / 65536 % 256, n / 256 % 256, n % 256]

/-- Byte width of the bus read/write (source: `enum Width`). -/
inductive Width
  | B1
  | B2
  | B4
deriving DecidableEq, Fintype

/-- Discriminant of `Width` (`repr(u8)` values `0b001`, `0b010`, `0b100`). -/
def Width.tag : Width → Nat
  | .B1 => 0b001
  | .B2 => 0b010
  | .B4 => 0b100

/-- Write operation variant (source: `enum WriteOp`). -/
inductive WriteOp
  | Write
  | Clear
  | Set
deriving DecidableEq, Fintype

/-- Discriminant of `WriteOp` (`repr(u8)` values `0b00_000`, `0b01_000`, `0b11_000`). -/
def WriteOp.tag : WriteOp → Nat
  | .Write => 0b00000
  | .Clear => 0b01000
  | .Set => 0b11000

/-- Check condition variant (source: `enum CheckCond`). -/
inductive CheckCond
  | AllClear
  | AnyClear
  | AllSet
  | AnySet
deriving DecidableEq, Fintype

/-- Discriminant of `CheckCond` (`repr(u8)` values `0b00_000` .. `0b11_000`). -/
def CheckCond.tag : CheckCond → Nat
  | .AllClear => 0b00000
  | .AnyClear => 0b01000
  | .AllSet => 0b10000
  | .AnySet => 0b11000

/-- DCD command for writing a value to an address (source: `struct Write`).
The `u32` fields are modelled as `Nat`; the byte encoders truncate mod 2^32. -/
structure Write where
  width : Width
  op : WriteOp
  address : Nat
  value : Nat
deriving DecidableEq

/-- DCD command for polling an address (source: `struct Check`). -/
structure Check where
  width : Width
  cond : CheckCond
  address : Nat
  mask : Nat
  count : Option Nat
deriving DecidableEq

/-- A DCD command (source: `enum Command`). -/
inductive Command
  | nop
  | write (w : Write)
  | check (c : Check)
deriving DecidableEq

/-- Source `dcd_header`: `[0xD2, len_hi, len_lo, 0x41]`. -/
def dcd_header (byte_len : Nat) : List Nat := [0xD2] ++ u16be byte_len ++ [0x41]

/-- Source `NOP_HEADER`. -/
def NOP_HEADER : List Nat := [0xC0, 0x00, 0x04, 0x00]

/-- Source `Write::byte_len(group_size)`: `4 + group_size * 8`, with
`assert!(n <= u16::MAX)` modelled as `none` (a panic) when the bound fails. -/
def Write.byte_len (group_size : Nat) : Option Nat :=
  if 4 + group_size * 8 ≤ 65535 then some (4 + group_size * 8) else none

/-- Source `Write::header`: `[0xCC, len_hi, len_lo, width | op]`; propagates
the possible `byte_len` panic. -/
def Write.header (w : Write) (group_size : Nat) : Option (List Nat) :=
  (Write.byte_len group_size).map fun n => [0xCC] ++ u16be n ++ [w.width.tag ||| w.op.tag]

/-- Source `Write::payload`: big-endian address then value. -/
def Write.payload (w : Write) : List Nat := u32be w.address ++ u32be w.value

/-- Source `Check::byte_len`: 16 when a count is present, otherwise 12. -/
def Check.byte_len (c : Check) : Nat := if c.count.isSome then 16 else 12

/-- Source `Check::header`: `[0xCF, len_hi, len_lo, width | cond]`. -/
def Check.header (c : Check) : List Nat :=
  [0xCF] ++ u16be c.byte_len ++ [c.width.tag ||| c.cond.tag]

/-- Source `Check::payload`: big-endian address then mask. -/
def Check.payload (c : Check) : List Nat := u32be c.address ++ u32be c.mask

/-- Source `Check::payload_with_count`: address, mask, then `count.unwrap()`.
The `unwrap` is guarded by an `is_some` test at the only call site, so the
`getD 0` default is never observed. -/
def Check.payload_with_count (c : Check) : List Nat :=
  u32be c.address ++ u32be c.mask ++ u32be (c.count.getD 0)

/-- Source `group_key(index, command)`: writes share the key
`(usize::MAX, width, op)`; any other command keys on its own index (with
`Width::default() = B4` and `WriteOp::default() = Write` as padding). -/
def group_key (index : Nat) : Command → Nat × Width × WriteOp
  | .write w => (usizeMax, w.width, w.op)
  | _ => (index, Width.B4, WriteOp.Write)

/-- The adjacency test used by `group_by`: equality of `group_key`s of the
enumerated elements. -/
def sameKey (a b : Nat × Command) : Bool :=
  decide (group_key a.1 a.2 = group_key b.1 b.2)

/-- One step of chunking: prepend `a` to the first chunk when it relates to
that chunk's head, otherwise start a new chunk. -/
def chunkStep (R : α → α → Bool) (a : α) : List (List α) → List (List α)
  | [] => [[a]]
  | [] :: gs => [a] :: gs
  | (b :: g) :: gs => if R a b then (a :: b :: g) :: gs else [a] :: (b :: g) :: gs

/-- Chunk a list into maximal runs of adjacent elements related by `R`
(the semantics of itertools `group_by` with `R` as key equality). -/
def chunkBy (R : α → α → Bool) (l : List α) : List (List α) :=
  l.foldr (chunkStep R) []

/-- The runs produced by `commands.into_iter().enumerate().group_by(group_key)`,
with the enumeration indices dropped again (the emission code never uses them). -/
def runsOf (cs : List Command) : List (List Command) :=
  (chunkBy sameKey cs.enum).map (List.map Prod.snd)

/-- First-pass contribution of one run to `byte_len` in `serialize`:
4 for a `Nop`, `Check::byte_len` for a check, `Write::byte_len(rest + 1)`
(which may panic) for a write run. -/
def runByteLen : List Command → Option Nat
  | [] => some 0
  | .nop :: _ => some 4
  | .check c :: _ => some c.byte_len
  | .write _ :: rest => Write.byte_len (rest.length + 1)

/-- Map a fallible function over a list, failing if any element fails. -/
def mapOpt (f : α → Option β) : List α → Option (List β)
  | [] => some []
  | a :: as =>
    match f a, mapOpt f as with
    | some b, some bs => some (b :: bs)
    | _, _ => none

/-- First pass of `serialize`: 4 bytes of DCD header plus every run's record
length; `none` when the `assert!` inside `Write::byte_len` fires. -/
def totalByteLen (cs : List Command) : Option Nat :=
  (mapOpt runByteLen (runsOf cs)).map fun ks => 4 + ks.sum

/-- The payload-extraction filter of the write-run emission loop
(`if let Command::Write(write) = command`). -/
def writePayloadOf : Command → Option (List Nat)
  | .write w => some w.payload
  | _ => none

/-- Second pass of `serialize`, per run: the record bytes written for one
group; `none` when the `assert!` inside `Write::header` fires. -/
def emitRun : List Command → Option (List Nat)
  | [] => some []
  | .nop :: _ => some NOP_HEADER
  | .check c :: _ =>
    some (c.header ++ (if c.count.isSome then c.payload_with_count else c.payload))
  | .write w :: rest =>
    (w.header (rest.length + 1)).map fun h =>
      h ++ w.payload ++ (rest.filterMap writePayloadOf).flatten

/-- Outcome of `serialize` against an infallible in-memory sink: the bytes
written so far together with success (and the returned length), the
oversized-block `InvalidInput` error, or a panic.  In the `panic` case after
the header was written, record bytes of the partially emitted run are not
tracked (that case is unreachable: the first pass already evaluated the same
`Write::byte_len` calls). -/
inductive SerResult
  | ok (bytes : List Nat) (ret : Nat)
  | oversized (bytes : List Nat)
  | panic (bytes : List Nat)
deriving DecidableEq

/-- Source `serialize`: empty input short-circuits to `Ok(0)`; otherwise a
first pass computes `byte_len` (possibly panicking), the oversized-block
check rejects totals above `u16::MAX` before anything is written, and the
second pass emits the DCD header followed by one record per run. -/
def serialize (commands : List Command) : SerResult :=
  if commands.isEmpty then .ok [] 0
  else
    match totalByteLen commands with
    | none => .panic []
    | some byte_len =>
      if 65535 < byte_len then .oversized []
      else
        match mapOpt emitRun (runsOf commands) with
        | none => .panic (dcd_header byte_len)
        | some recs => .ok (dcd_header byte_len ++ recs.flatten) byte_len

/-- Stated from the specification, for comparison with `runsOf`: two
adjacent commands belong to the same run iff both are `Write` commands with
identical `width` and identical `op`. -/
def specSameRun : Command → Command → Bool
  | .write a, .write b => decide (a.width = b.width ∧ a.op = b.op)
  | _, _ => false

/-! ### Structure of `chunkBy` -/

theorem chunkBy_nil (R : α → α → Bool) : chunkBy R [] = [] := rfl

theorem chunkBy_cons (R : α → α → Bool) (a : α) (l : List α) :
    chunkBy R (a :: l) = chunkStep R a (chunkBy R l) := rfl

/-- A chunking of a nonempty list starts with a chunk led by the head, and
the chunks concatenate back to the input. -/
theorem chunkBy_cons_shape (R : α → α → Bool) (a : α) (l : List α) :
    ∃ t gs, chunkBy R (a :: l) = (a :: t) :: gs ∧ t ++ gs.flatten = l := by
  induction l generalizing a with
  | nil => exact ⟨[], [], rfl, rfl⟩
  | cons b l ih =>
    obtain ⟨t, gs, hbt, hjoin⟩ := ih b
    rw [chunkBy_cons, hbt]
    by_cases hR : R a b
    · exact ⟨b :: t, gs, by simp [chunkStep, hR], by simp [hjoin]⟩
    · exact ⟨[], (b :: t) :: gs, by simp [chunkStep, hR], by simp [hjoin]⟩

/-- The chunks of `chunkBy` concatenate back to the input list. -/
theorem chunkBy_flatten (R : α → α → Bool) (l : List α) :
    (chunkBy R l).flatten = l := by
  cases l with
  | nil => rfl
  | cons a l =>
    obtain ⟨t, gs, h, hjoin⟩ := chunkBy_cons_shape R a l
    rw [h]
    simp [hjoin]

/-- Elements within one chunk of `chunkBy` are pairwise adjacent under `R`. -/
theorem chunkBy_chain (R : α → α → Bool) :
    ∀ (l : List α) g, g ∈ chunkBy R l → List.Chain' (fun a b => R a b = true) g := by
  intro l
  induction l with
  | nil => intro g hg; simp [chunkBy_nil] at hg
  | cons a l ih =>
    intro g hg
    rw [chunkBy_cons] at hg
    rcases hmem : chunkBy R l with _ | ⟨_ | ⟨b, g'⟩, gs⟩
    · rw [hmem] at hg
      simp [chunkStep] at hg
      simp [hg]
    · rw [hmem] at hg
      simp only [chunkStep] at hg
      rcases List.mem_cons.mp hg with h | h
      · simp [h]
      · exact ih g (by rw [hmem]; exact List.mem_cons_of_mem _ h)
    · rw [hmem] at hg
      by_cases hR : R a b
      · simp only [chunkStep, if_pos hR] at hg
        rcases List.mem_cons.mp hg with h | h
        · subst h
          exact List.chain'_cons.mpr
            ⟨hR, ih (b :: g') (by rw [hmem]; exact List.mem_cons_self _ _)⟩
        · exact ih g (by rw [hmem]; exact List.mem_cons_of_mem _ h)
      · simp only [chunkStep, if_neg hR] at hg
        rcases List.mem_cons.mp hg with h | h
        · simp [h]
        · exact ih g (by rw [hmem]; exact h)

/-! ### The enumerated grouping agrees with the spec-level run relation -/

/-- On adjacent enumeration indices below `usize::MAX`, equality of
`group_key`s is exactly the spec-level same-run relation. -/
theorem sameKey_adj (i : Nat) (h : i + 1 < usizeMax) (a b : Command) :
    sameKey (i, a) (i + 1, b) = specSameRun a b := by
  cases a <;> cases b <;> simp only [sameKey, group_key, specSameRun] <;>
    first
    | (rw [decide_eq_decide]
       constructor
       · intro heq
         injection heq with h1 hrest
         injection hrest with h2 h3
         exact ⟨h2, h3⟩
       · rintro ⟨h2, h3⟩
         rw [h2, h3])
    | (rw [decide_eq_false_iff_not]
       intro heq
       injection heq with h1 _
       omega)

/-- Dropping the enumeration indices, the grouping computed by the code is
the chunking of the plain command list by the spec-level run relation, for
any list short enough to be indexable by `usize`. -/
theorem chunk_enumFrom_eq (l : List Command) :
    ∀ n, n + l.length ≤ usizeMax →
      (chunkBy sameKey (List.enumFrom n l)).map (List.map Prod.snd) =
        chunkBy specSameRun l := by
  induction l with
  | nil => intro n _; rfl
  | cons a l ih =>
    intro n hn
    cases l with
    | nil => rfl
    | cons b l' =>
      have hkey : n + 1 < usizeMax := by
        simp only [List.length_cons] at hn; omega
      have hlen : (n + 1) + (b :: l').length ≤ usizeMax := by
        simp only [List.length_cons] at hn ⊢; omega
      have hrec := ih (n + 1) hlen
      obtain ⟨t, gs, hshape, _⟩ :=
        chunkBy_cons_shape sameKey (n + 1, b) (List.enumFrom (n + 2) l')
      have henum2 : List.enumFrom (n + 1) (b :: l') =
          (n + 1, b) :: List.enumFrom (n + 2) l' := rfl
      rw [henum2, hshape] at hrec
      have henum : List.enumFrom n (a :: b :: l') =
          (n, a) :: (n + 1, b) :: List.enumFrom (n + 2) l' := rfl
      rw [henum, chunkBy_cons, hshape, chunkBy_cons, ← hrec]
      have hadj := sameKey_adj n hkey a b
      by_cases hspec : specSameRun a b
      · simp [chunkStep, hadj, hspec]
      · simp [chunkStep, hadj, hspec]

/-- The code's grouping, for any `usize`-indexable command list, equals the
spec-level chunking into maximal runs of compatible writes. -/
theorem runsOf_eq_spec (cs : List Command) (h : cs.length ≤ usizeMax) :
    runsOf cs = chunkBy specSameRun cs := by
  have := chunk_enumFrom_eq cs 0 (by omega)
  simpa [runsOf, List.enum] using this

/-! ### Claim theorems (first batch) -/

/-- C1: for every command list (of `usize`-indexable length), `serialize`
partitions the input into maximal contiguous runs in which two adjacent
commands share a run iff both are `Write` commands with identical width and
op (`chunkBy specSameRun`); every `Nop` and `Check` is a singleton run and
any non-matching command splits otherwise-compatible writes, since the runs
are exactly the chunking by that adjacency relation; the runs concatenate
back to the input in order, and `serialize` emits one record per run
(`emitRun` mapped over `runsOf`). -/
theorem c1_grouping_maximal_runs (cs : List Command) (h : cs.length ≤ usizeMax) :
    runsOf cs = chunkBy specSameRun cs ∧ (runsOf cs).flatten = cs := by
  have heq := runsOf_eq_spec cs h
  exact ⟨heq, by rw [heq]; exact chunkBy_flatten _ _⟩

/-- Witness for C1 at a concrete list: two mergeable writes, a `Nop`
splitting a further compatible write off, then a width-mismatched write. -/
theorem c1_grouping_maximal_runs_witness :
    ([Command.write ⟨Width.B4, WriteOp.Write, 1, 2⟩,
      Command.write ⟨Width.B4, WriteOp.Write, 3, 4⟩,
      Command.nop,
      Command.write ⟨Width.B4, WriteOp.Write, 5, 6⟩,
      Command.write ⟨Width.B2, WriteOp.Write, 7, 8⟩] : List Command).length ≤ usizeMax ∧
    (runsOf [Command.write ⟨Width.B4, WriteOp.Write, 1, 2⟩,
      Command.write ⟨Width.B4, WriteOp.Write, 3, 4⟩,
      Command.nop,
      Command.write ⟨Width.B4, WriteOp.Write, 5, 6⟩,
      Command.write ⟨Width.B2, WriteOp.Write, 7, 8⟩] =
      chunkBy specSameRun [Command.write ⟨Width.B4, WriteOp.Write, 1, 2⟩,
        Command.write ⟨Width.B4, WriteOp.Write, 3, 4⟩,
        Command.nop,
        Command.write ⟨Width.B4, WriteOp.Write, 5, 6⟩,
        Command.write ⟨Width.B2, WriteOp.Write, 7, 8⟩] ∧
     (runsOf [Command.write ⟨Width.B4, WriteOp.Write, 1, 2⟩,
       Command.write ⟨Width.B4, WriteOp.Write, 3, 4⟩,
       Command.nop,
       Command.write ⟨Width.B4, WriteOp.Write, 5, 6⟩,
       Command.write ⟨Width.B2, WriteOp.Write, 7, 8⟩]).flatten =
       [Command.write ⟨Width.B4, WriteOp.Write, 1, 2⟩,
        Command.write ⟨Width.B4, WriteOp.Write, 3, 4⟩,
        Command.nop,
        Command.write ⟨Width.B4, WriteOp.Write, 5, 6⟩,
        Command.write ⟨Width.B2, WriteOp.Write, 7, 8⟩]) :=
  ⟨by decide, c1_grouping_maximal_runs _ (by decide)⟩

/-- C7: serializing the empty command list writes nothing to the sink and
returns `Ok(0)`. -/
theorem c7_empty_input : serialize [] = SerResult.ok [] 0 := rfl

/-- C8: the width tags live in bits [2:0] and the op/cond tags in bits
[4:3], so composing a flag byte with bitwise OR is lossless: equal flag
bytes force equal widths and equal ops (resp. conds). -/
theorem c8_flag_byte_lossless :
    (∀ w1 w2 : Width, ∀ o1 o2 : WriteOp,
        w1.tag ||| o1.tag = w2.tag ||| o2.tag → w1 = w2 ∧ o1 = o2) ∧
    (∀ w1 w2 : Width, ∀ c1 c2 : CheckCond,
        w1.tag ||| c1.tag = w2.tag ||| c2.tag → w1 = w2 ∧ c1 = c2) := by
  decide

/-- Witness for C8: the flag-byte equation is satisfiable. -/
theorem c8_flag_byte_lossless_witness :
    Width.B1 = Width.B1 ∧ WriteOp.Write = WriteOp.Write :=
  c8_flag_byte_lossless.1 Width.B1 Width.B1 WriteOp.Write WriteOp.Write rfl

/-- C9: the reference fixture `[Nop, Write{B4,Write,..}, Check{B2,AnySet,..,
count=16}, Check{B1,AnyClear,..,count=None}]` serializes successfully to
exactly the 48 documented bytes and returns 48. -/
theorem c9_reference_fixture :
    serialize
      [Command.nop,
       Command.write ⟨Width.B4, WriteOp.Write, 0x01234567, 0xdeadbeef⟩,
       Command.check ⟨Width.B2, CheckCond.AnySet, 0x89abcdef, 0x55aa55aa, some 16⟩,
       Command.check ⟨Width.B1, CheckCond.AnyClear, 0x89abcdef, 0x55aa55aa, none⟩] =
    SerResult.ok
      [0xD2, 0x00, 0x30, 0x41,
       0xC0, 0x00, 0x04, 0x00,
       0xCC, 0x00, 0x0C, 0x04, 0x01, 0x23, 0x45, 0x67, 0xDE, 0xAD, 0xBE, 0xEF,
       0xCF, 0x00, 0x10, 0x1A, 0x89, 0xAB, 0xCD, 0xEF,
       0x55, 0xAA, 0x55, 0xAA, 0x00, 0x00, 0x00, 0x10,
       0xCF, 0x00, 0x0C, 0x09, 0x89, 0xAB, 0xCD, 0xEF, 0x55, 0xAA, 0x55, 0xAA]
      48 := by
  decide

/-! ### Record shapes -/

/-- On a list of write commands, the emission filter keeps every payload. -/
theorem filterMap_writePayloadOf_map (ws : List Write) :
    List.filterMap (writePayloadOf ∘ Command.write) ws = ws.map Write.payload := by
  induction ws with
  | nil => rfl
  | cons x ws ih => simp [writePayloadOf, ih]

/-- C5: a run of `n` write commands sharing width and op is emitted as one
record: tag `0xCC`, big-endian 16-bit length `4 + n*8`, flag byte
`width | op` of the run's head, then the `n` big-endian address/value pairs
in input order. -/
theorem c5_write_run_record (w : Write) (ws : List Write)
    (_hshare : ∀ x ∈ ws, x.width = w.width ∧ x.op = w.op)
    (hlen : 4 + (w :: ws).length * 8 ≤ 65535) :
    emitRun ((w :: ws).map Command.write) =
      some ([0xCC] ++ u16be (4 + (w :: ws).length * 8) ++ [w.width.tag ||| w.op.tag] ++
        ((w :: ws).map Write.payload).flatten) := by
  have h8 : 4 + (ws.length + 1) * 8 ≤ 65535 := by
    simpa [List.length_cons] using hlen
  simp [emitRun, Write.header, Write.byte_len, if_pos h8,
    filterMap_writePayloadOf_map, Write.payload]

/-- Witness for C5 at a two-element run of `B4`/`Write` writes. -/
theorem c5_write_run_record_witness :
    emitRun [Command.write ⟨Width.B4, WriteOp.Write, 0x01234567, 0xdeadbeef⟩,
             Command.write ⟨Width.B4, WriteOp.Write, 0x89abcdef, 0x13370000⟩] =
      some [0xCC, 0x00, 0x14, 0x04,
            0x01, 0x23, 0x45, 0x67, 0xDE, 0xAD, 0xBE, 0xEF,
            0x89, 0xAB, 0xCD, 0xEF, 0x13, 0x37, 0x00, 0x00] :=
  (c5_write_run_record ⟨Width.B4, WriteOp.Write, 0x01234567, 0xdeadbeef⟩
    [⟨Width.B4, WriteOp.Write, 0x89abcdef, 0x13370000⟩]
    (by decide) (by decide)).trans (by decide)

/-- C6: a `Check` command is emitted as one record: tag `0xCF`, big-endian
16-bit length 16 when `count` is present and 12 when absent, flag byte
`width | cond`, big-endian address and mask, then the big-endian count
exactly when present; the emitted record's byte count equals that length
field, so `count = Some 0` still yields a full 16-byte Check record (tag
`0xCF`), never a 4-byte Nop record. -/
theorem c6_check_record (c : Check) :
    emitRun [Command.check c] =
      some ([0xCF] ++ u16be c.byte_len ++ [c.width.tag ||| c.cond.tag] ++
        u32be c.address ++ u32be c.mask ++
        (match c.count with | some k => u32be k | none => [])) ∧
    c.byte_len = (if c.count.isSome then 16 else 12) ∧
    (emitRun [Command.check c]).map List.length = some c.byte_len := by
  cases hc : c.count with
  | none =>
    refine ⟨?_, by simp [Check.byte_len, hc], ?_⟩ <;>
      simp [emitRun, Check.header, Check.byte_len, Check.payload, hc, u16be, u32be]
  | some k =>
    refine ⟨?_, by simp [Check.byte_len, hc], ?_⟩ <;>
      simp [emitRun, Check.header, Check.byte_len, Check.payload_with_count, hc, u16be, u32be]

/-! ### Per-run and whole-block byte counts -/

/-- Within a spec-level run headed by a write, every later element is a
write as well (by chaining the adjacency relation). -/
theorem chain_write_tail :
    ∀ (rest : List Command) (w : Write),
      List.Chain' (fun a b => specSameRun a b = true) (Command.write w :: rest) →
      ∀ c ∈ rest, ∃ w', c = Command.write w' := by
  intro rest
  induction rest with
  | nil => intro w _ c hc; simp at hc
  | cons d rest ih =>
    intro w hchain c hc
    have h1 : specSameRun (Command.write w) d = true := (List.chain'_cons.mp hchain).1
    have h2 := (List.chain'_cons.mp hchain).2
    cases d with
    | nop => simp [specSameRun] at h1
    | check c' => simp [specSameRun] at h1
    | write w' =>
      rcases List.mem_cons.mp hc with h | h
      · exact ⟨w', h⟩
      · exact ih w' h2 c h

/-- When every element of the tail of a write group is a write, the
emitted payload block is 8 bytes per element. -/
theorem filterMap_payload_all_writes :
    ∀ (rest : List Command), (∀ c ∈ rest, ∃ w', c = Command.write w') →
      ((rest.filterMap writePayloadOf).flatten).length = 8 * rest.length := by
  intro rest
  induction rest with
  | nil => intro _; rfl
  | cons c rest ih =>
    intro h
    obtain ⟨w', hw⟩ := h c (List.mem_cons_self _ _)
    subst hw
    have htail := ih (fun c hc => h c (List.mem_cons_of_mem _ hc))
    simp [writePayloadOf, Write.payload, u32be, htail]
    ring

/-- A run whose first-pass length is `some k` emits a record of exactly `k`
bytes, provided a write-headed run contains only writes. -/
theorem emitRun_of_runByteLen (g : List Command) (k : Nat)
    (hpure : ∀ w rest, g = Command.write w :: rest →
      ∀ c ∈ rest, ∃ w', c = Command.write w')
    (hk : runByteLen g = some k) :
    ∃ r, emitRun g = some r ∧ r.length = k := by
  cases g with
  | nil =>
    refine ⟨[], rfl, ?_⟩
    simp [runByteLen] at hk
    simp [← hk]
  | cons c rest =>
    cases c with
    | nop =>
      refine ⟨NOP_HEADER, rfl, ?_⟩
      simp [runByteLen] at hk
      simp [NOP_HEADER]
      omega
    | check ch =>
      simp only [runByteLen, Option.some.injEq] at hk
      refine ⟨_, rfl, ?_⟩
      cases hc : ch.count with
      | none => simp [Check.header, Check.payload, Check.byte_len, u16be, u32be, hc, ← hk]
      | some m =>
        simp [Check.header, Check.payload_with_count, Check.byte_len, u16be, u32be, hc, ← hk]
    | write w =>
      simp only [runByteLen, Write.byte_len] at hk
      by_cases hle : 4 + (rest.length + 1) * 8 ≤ 65535
      · rw [if_pos hle, Option.some.injEq] at hk
        have hall := hpure w rest rfl
        refine ⟨[0xCC] ++ u16be (4 + (rest.length + 1) * 8) ++ [w.width.tag ||| w.op.tag] ++
          w.payload ++ (rest.filterMap writePayloadOf).flatten, ?_, ?_⟩
        · simp [emitRun, Write.header, Write.byte_len, if_pos hle]
        · simp [Write.payload, u32be, u16be, filterMap_payload_all_writes rest hall]
          omega
      · rw [if_neg hle] at hk
        exact absurd hk (by simp)

/-- Inversion of `mapOpt` on a cons cell. -/
theorem mapOpt_cons_inv (f : α → Option β) (a : α) (as : List α) (bs : List β)
    (h : mapOpt f (a :: as) = some bs) :
    ∃ b bs', f a = some b ∧ mapOpt f as = some bs' ∧ bs = b :: bs' := by
  simp only [mapOpt] at h
  cases hfa : f a with
  | none => rw [hfa] at h; simp at h
  | some b =>
    rw [hfa] at h
    cases hrest : mapOpt f as with
    | none => rw [hrest] at h; simp at h
    | some bs' =>
      rw [hrest] at h
      simp at h
      exact ⟨b, bs', rfl, rfl, h.symm⟩

/-- Across a whole run list: when the first pass succeeds, so does the
second, emitting one record per run whose total size is the first pass's
sum. -/
theorem emit_runs_lengths :
    ∀ (runs : List (List Command)) (ks : List Nat),
      (∀ g ∈ runs, ∀ w rest, g = Command.write w :: rest →
        ∀ c ∈ rest, ∃ w', c = Command.write w') →
      mapOpt runByteLen runs = some ks →
      ∃ recs, mapOpt emitRun runs = some recs ∧
        recs.flatten.length = ks.sum ∧ recs.length = runs.length := by
  intro runs
  induction runs with
  | nil =>
    intro ks _ hks
    simp only [mapOpt, Option.some.injEq] at hks
    exact ⟨[], rfl, by simp [← hks], by simp⟩
  | cons g runs ih =>
    intro ks hpure hks
    obtain ⟨k, ks', hg, hrest, rfl⟩ := mapOpt_cons_inv _ _ _ _ hks
    obtain ⟨r, hr, hrlen⟩ :=
      emitRun_of_runByteLen g k (hpure g (List.mem_cons_self _ _)) hg
    obtain ⟨recs, hrecs, hflat, hcount⟩ :=
      ih ks' (fun g' hg' => hpure g' (List.mem_cons_of_mem _ hg')) hrest
    refine ⟨r :: recs, ?_, ?_, ?_⟩
    · simp [mapOpt, hr, hrecs]
    · simp [hflat, hrlen]
    · simp [hcount]

/-- Inversion of a successful `serialize` on a nonempty input: the first
pass computed exactly the returned length, it passed the 16-bit bound, and
the output is the DCD header followed by the emitted records. -/
theorem serialize_ok_inv (cs : List Command) (bytes : List Nat) (ret : Nat)
    (hne : cs ≠ []) (hok : serialize cs = SerResult.ok bytes ret) :
    ∃ recs, totalByteLen cs = some ret ∧ ret ≤ 65535 ∧
      mapOpt emitRun (runsOf cs) = some recs ∧
      bytes = dcd_header ret ++ recs.flatten := by
  have hF : cs.isEmpty = false := by
    cases cs with
    | nil => exact absurd rfl hne
    | cons a l => rfl
  unfold serialize at hok
  rw [if_neg (by simp [hF])] at hok
  split at hok
  next => exact absurd hok (by simp)
  next n ht =>
    split at hok
    next => exact absurd hok (by simp)
    next hn =>
      split at hok
      next => exact absurd hok (by simp)
      next recs he =>
        injection hok with hb hr
        subst hr
        exact ⟨recs, ht, by omega, he, hb.symm⟩

/-- Runs of write-headed groups contain only writes, for `usize`-indexable
inputs. -/
theorem runsOf_write_pure (cs : List Command) (hlen : cs.length ≤ usizeMax) :
    ∀ g ∈ runsOf cs, ∀ w rest, g = Command.write w :: rest →
      ∀ c ∈ rest, ∃ w', c = Command.write w' := by
  intro g hg w rest hgw c hc
  have hspec := runsOf_eq_spec cs hlen
  have hchain := chunkBy_chain specSameRun cs g (by rw [← hspec]; exact hg)
  rw [hgw] at hchain
  exact chain_write_tail rest w hchain c hc

/-- C4: on every nonempty command list accepted by `serialize`, the
returned integer is the total number of bytes written (4-byte header plus
all records), the first four written bytes are the DCD header whose bytes
1..2 hold that integer big-endian, and the 16-bit field decodes back to the
returned integer (which fits in 16 bits). -/
theorem c4_return_matches_header_and_output (cs : List Command)
    (bytes : List Nat) (ret : Nat) (hlen : cs.length ≤ usizeMax)
    (hne : cs ≠ []) (hok : serialize cs = SerResult.ok bytes ret) :
    bytes.length = ret ∧ ret ≤ 65535 ∧ bytes.take 4 = dcd_header ret ∧
      256 * (ret / 256 % 256) + ret % 256 = ret := by
  obtain ⟨recs, ht, hret, he, hb⟩ := serialize_ok_inv cs bytes ret hne hok
  unfold totalByteLen at ht
  cases hks : mapOpt runByteLen (runsOf cs) with
  | none => rw [hks] at ht; exact absurd ht (by simp)
  | some ks =>
    rw [hks] at ht
    simp at ht
    obtain ⟨recs', hrecs', hflat, _⟩ :=
      emit_runs_lengths (runsOf cs) ks (runsOf_write_pure cs hlen) hks
    rw [he] at hrecs'
    injection hrecs' with hreq
    subst hreq
    refine ⟨?_, by omega, ?_, by omega⟩
    · rw [hb]
      simp [dcd_header, u16be, hflat]
      omega
    · rw [hb, List.take_left' (by simp [dcd_header, u16be])]

/-- Witness for C4 at the singleton `[Nop]` list: 8 bytes, header length
field `0x0008`. -/
theorem c4_return_matches_header_and_output_witness :
    ([0xD2, 0, 8, 0x41, 0xC0, 0, 4, 0] : List Nat).length = 8 ∧ (8 : Nat) ≤ 65535 ∧
      ([0xD2, 0, 8, 0x41, 0xC0, 0, 4, 0] : List Nat).take 4 = dcd_header 8 ∧
      256 * (8 / 256 % 256) + 8 % 256 = 8 :=
  c4_return_matches_header_and_output [Command.nop] _ 8
    (by decide) (by decide) (by decide)

/-! ### Alignment and minimum size -/

/-- The DCD header is 4 bytes long. -/
theorem dcd_header_length (n : Nat) : (dcd_header n).length = 4 := by
  simp [dcd_header, u16be]

/-- The write-run payload block always consists of whole 8-byte pairs. -/
theorem payload_flatten_mod8 :
    ∀ (rest : List Command), ∃ m, ((rest.filterMap writePayloadOf).flatten).length = 8 * m := by
  intro rest
  induction rest with
  | nil => exact ⟨0, rfl⟩
  | cons d rest ih =>
    obtain ⟨m, hm⟩ := ih
    cases d with
    | write w' =>
      refine ⟨m + 1, ?_⟩
      simp only [List.filterMap_cons, writePayloadOf, List.flatten_cons, List.length_append,
        hm, Write.payload, u32be, List.length_cons, List.length_nil]
      omega
    | nop =>
      refine ⟨m, ?_⟩
      simp only [List.filterMap_cons, writePayloadOf]
      exact hm
    | check c' =>
      refine ⟨m, ?_⟩
      simp only [List.filterMap_cons, writePayloadOf]
      exact hm

/-- Every first-pass run length is a multiple of 4 and (for a nonempty run)
at least 4. -/
theorem runByteLen_mod4 (g : List Command) (k : Nat) (hk : runByteLen g = some k) :
    k % 4 = 0 ∧ (g ≠ [] → 4 ≤ k) := by
  cases g with
  | nil =>
    simp [runByteLen] at hk
    exact ⟨by omega, fun h => absurd rfl h⟩
  | cons c rest =>
    cases c with
    | nop =>
      simp [runByteLen] at hk
      exact ⟨by omega, fun _ => by omega⟩
    | check ch =>
      simp only [runByteLen, Option.some.injEq] at hk
      refine ⟨?_, fun _ => ?_⟩ <;>
        cases hc : ch.count <;> simp [Check.byte_len, hc] at hk <;> omega
    | write w =>
      simp only [runByteLen, Write.byte_len] at hk
      by_cases hle : 4 + (rest.length + 1) * 8 ≤ 65535
      · rw [if_pos hle, Option.some.injEq] at hk
        exact ⟨by omega, fun _ => by omega⟩
      · rw [if_neg hle] at hk
        exact absurd hk (by simp)

/-- Every emitted record's byte count is a multiple of 4 and (for a
nonempty run) at least 4, with no purity assumption: the payload filter
only ever contributes whole 8-byte pairs. -/
theorem emitRun_mod4 (g : List Command) (r : List Nat) (hr : emitRun g = some r) :
    r.length % 4 = 0 ∧ (g ≠ [] → 4 ≤ r.length) := by
  cases g with
  | nil =>
    simp only [emitRun, Option.some.injEq] at hr
    subst hr
    exact ⟨rfl, fun h => absurd rfl h⟩
  | cons c rest =>
    cases c with
    | nop =>
      simp only [emitRun, Option.some.injEq] at hr
      subst hr
      exact ⟨by simp [NOP_HEADER], fun _ => by simp [NOP_HEADER]⟩
    | check ch =>
      simp only [emitRun, Option.some.injEq] at hr
      subst hr
      refine ⟨?_, fun _ => ?_⟩ <;>
        cases hc : ch.count <;>
          simp [hc, Check.header, Check.byte_len, Check.payload,
            Check.payload_with_count, u16be, u32be]
    | write w =>
      simp only [emitRun, Write.header, Write.byte_len] at hr
      by_cases hle : 4 + (rest.length + 1) * 8 ≤ 65535
      · rw [if_pos hle] at hr
        simp only [Option.map_some', Option.some.injEq] at hr
        subst hr
        obtain ⟨m, hm⟩ := payload_flatten_mod8 rest
        refine ⟨?_, fun _ => ?_⟩ <;>
          · simp only [List.length_append, List.length_cons, List.length_nil,
              u16be, Write.payload, u32be, hm]
            omega
      · rw [if_neg hle] at hr
        exact absurd hr (by simp)

/-- The sum of first-pass run lengths is a multiple of 4. -/
theorem mapOpt_runByteLen_sum_mod4 :
    ∀ (runs : List (List Command)) (ks : List Nat),
      mapOpt runByteLen runs = some ks → ks.sum % 4 = 0 := by
  intro runs
  induction runs with
  | nil =>
    intro ks h
    simp only [mapOpt, Option.some.injEq] at h
    subst h
    rfl
  | cons g runs ih =>
    intro ks h
    obtain ⟨k, ks', hg, hrest, rfl⟩ := mapOpt_cons_inv _ _ _ _ h
    have h1 := (runByteLen_mod4 g k hg).1
    have h2 := ih ks' hrest
    simp only [List.sum_cons]
    omega

/-- The total length of the emitted records is a multiple of 4. -/
theorem mapOpt_emitRun_flatten_mod4 :
    ∀ (runs : List (List Command)) (recs : List (List Nat)),
      mapOpt emitRun runs = some recs → recs.flatten.length % 4 = 0 := by
  intro runs
  induction runs with
  | nil =>
    intro recs h
    simp only [mapOpt, Option.some.injEq] at h
    subst h
    rfl
  | cons g runs ih =>
    intro recs h
    obtain ⟨r, recs', hg, hrest, rfl⟩ := mapOpt_cons_inv _ _ _ _ h
    have h1 := (emitRun_mod4 g r hg).1
    have h2 := ih recs' hrest
    simp only [List.flatten_cons, List.length_append]
    omega

/-- The chunking of a nonempty command list starts with a run headed by the
first command. -/
theorem runsOf_cons_shape (c : Command) (cs : List Command) :
    ∃ t gs, runsOf (c :: cs) = (c :: t) :: gs := by
  obtain ⟨t, gs, h, _⟩ := chunkBy_cons_shape sameKey (0, c) (List.enumFrom 1 cs)
  refine ⟨t.map Prod.snd, gs.map (List.map Prod.snd), ?_⟩
  unfold runsOf
  rw [show (c :: cs).enum = (0, c) :: List.enumFrom 1 cs from rfl, h]
  simp

/-- C10: every successful serialization returns a byte count that is a
multiple of 4 and writes a number of bytes that is the same multiple of 4
(header of 4 plus records of 4, 12, 16 or `4 + 8n` bytes); a successful
nonempty encode returns at least 8 and writes at least 8 bytes. -/
theorem c10_output_multiple_of_four (cs : List Command) (bytes : List Nat)
    (ret : Nat) (hok : serialize cs = SerResult.ok bytes ret) :
    ret % 4 = 0 ∧ bytes.length % 4 = 0 ∧ (cs ≠ [] → 8 ≤ ret ∧ 8 ≤ bytes.length) := by
  cases cs with
  | nil =>
    have h0 : SerResult.ok ([] : List Nat) 0 = SerResult.ok bytes ret := hok
    injection h0 with hb hr
    subst hb
    subst hr
    exact ⟨rfl, rfl, fun h => absurd rfl h⟩
  | cons c cs' =>
    obtain ⟨recs, ht, hret, he, hb⟩ :=
      serialize_ok_inv (c :: cs') bytes ret (by simp) hok
    unfold totalByteLen at ht
    cases hks : mapOpt runByteLen (runsOf (c :: cs')) with
    | none => rw [hks] at ht; exact absurd ht (by simp)
    | some ks =>
      rw [hks] at ht
      simp only [Option.map_some', Option.some.injEq] at ht
      have hsum := mapOpt_runByteLen_sum_mod4 _ ks hks
      have h4 := mapOpt_emitRun_flatten_mod4 _ recs he
      have hblen : bytes.length = 4 + recs.flatten.length := by
        rw [hb, List.length_append, dcd_header_length]
      refine ⟨by omega, by omega, fun _ => ?_⟩
      obtain ⟨t, gs, hshape⟩ := runsOf_cons_shape c cs'
      rw [hshape] at hks he
      obtain ⟨k, ks', hk, _, rfl⟩ := mapOpt_cons_inv _ _ _ _ hks
      obtain ⟨r, recs', hr, _, rfl⟩ := mapOpt_cons_inv _ _ _ _ he
      have hk4 := (runByteLen_mod4 _ k hk).2 (by simp)
      have hr4 := (emitRun_mod4 _ r hr).2 (by simp)
      simp only [List.sum_cons] at ht
      rw [hblen]
      simp only [List.flatten_cons, List.length_append]
      omega

/-- Witness for C10 at the singleton `[Nop]` list. -/
theorem c10_output_multiple_of_four_witness :
    (8 : Nat) % 4 = 0 ∧ ([0xD2, 0, 8, 0x41, 0xC0, 0, 4, 0] : List Nat).length % 4 = 0 ∧
      (8 ≤ (8 : Nat) ∧ 8 ≤ ([0xD2, 0, 8, 0x41, 0xC0, 0, 4, 0] : List Nat).length) :=
  have h := c10_output_multiple_of_four [Command.nop] [0xD2, 0, 8, 0x41, 0xC0, 0, 4, 0] 8
    (by decide)
  ⟨h.1, h.2.1, h.2.2 (by decide)⟩

/-! ### The panic on an oversized single write run -/

/-- Every element of an enumerated replicated list carries the replicated
command. -/
theorem enumFrom_replicate_snd (c : Command) :
    ∀ (k m : Nat), ∀ p ∈ List.enumFrom m (List.replicate k c), p.2 = c := by
  intro k
  induction k with
  | zero => intro m p hp; simp [List.replicate] at hp
  | succ k ih =>
    intro m p hp
    rw [List.replicate_succ] at hp
    rw [show List.enumFrom m (c :: List.replicate k c) =
      (m, c) :: List.enumFrom (m + 1) (List.replicate k c) from rfl] at hp
    rcases List.mem_cons.mp hp with h | h
    · rw [h]
    · exact ih (m + 1) p h

/-- Dropping the indices of an enumeration recovers the original list. -/
theorem map_snd_enumFrom : ∀ (l : List α) (n : Nat),
    (List.enumFrom n l).map Prod.snd = l := by
  intro l
  induction l with
  | nil => intro n; rfl
  | cons a l ih =>
    intro n
    rw [show List.enumFrom n (a :: l) = (n, a) :: List.enumFrom (n + 1) l from rfl]
    simp [ih]

/-- A nonempty enumerated list all of whose elements carry the same write
command forms a single group: all its `group_key`s coincide. -/
theorem chunkBy_all_write (w : Write) :
    ∀ (l : List (Nat × Command)), (∀ p ∈ l, p.2 = Command.write w) → l ≠ [] →
      chunkBy sameKey l = [l] := by
  intro l
  induction l with
  | nil => intro _ h; exact absurd rfl h
  | cons a l ih =>
    intro hall _
    cases l with
    | nil => rfl
    | cons b l' =>
      have hb : chunkBy sameKey (b :: l') = [b :: l'] :=
        ih (fun p hp => hall p (List.mem_cons_of_mem _ hp)) (by simp)
      rw [chunkBy_cons, hb]
      have ha2 : a.2 = Command.write w := hall a (List.mem_cons_self _ _)
      have hb2 : b.2 = Command.write w :=
        hall b (List.mem_cons_of_mem _ (List.mem_cons_self _ _))
      have hkey : sameKey a b = true := by
        simp [sameKey, group_key, ha2, hb2]
      simp [chunkStep, hkey]

/-- A replicated write command groups into exactly one run. -/
theorem runsOf_replicate_write (w : Write) (n : Nat) (hn : 0 < n) :
    runsOf (List.replicate n (Command.write w)) = [List.replicate n (Command.write w)] := by
  unfold runsOf
  have hchunk := chunkBy_all_write w (List.replicate n (Command.write w)).enum
    (fun p hp => enumFrom_replicate_snd (Command.write w) n 0 p hp)
    (by
      obtain ⟨m, rfl⟩ : ∃ m, n = m + 1 := ⟨n - 1, by omega⟩
      rw [List.replicate_succ]
      exact fun h => by simp [List.enum] at h)
  rw [hchunk]
  simp [List.enum, map_snd_enumFrom]

/-- A run of at least 8192 mergeable writes makes the first pass of
`serialize` hit the `assert!` inside `Write::byte_len` (since
`4 + n*8 > 65535`), i.e. panic with nothing written, instead of reaching
the oversized-block error return. -/
theorem serialize_replicate_write_panics (w : Write) (n : Nat) (hn : 8191 < n) :
    serialize (List.replicate n (Command.write w)) = SerResult.panic [] := by
  have h0 : 0 < n := by omega
  have hruns := runsOf_replicate_write w n h0
  have hne : (List.replicate n (Command.write w)).isEmpty = false := by
    obtain ⟨m, rfl⟩ : ∃ m, n = m + 1 := ⟨n - 1, by omega⟩
    rw [List.replicate_succ]
    rfl
  have htot : totalByteLen (List.replicate n (Command.write w)) = none := by
    unfold totalByteLen
    rw [hruns]
    obtain ⟨m, rfl⟩ : ∃ m, n = m + 1 := ⟨n - 1, by omega⟩
    have hrb : runByteLen (List.replicate (m + 1) (Command.write w)) = none := by
      rw [List.replicate_succ]
      simp only [runByteLen, Write.byte_len, List.length_replicate]
      rw [if_neg (by omega)]
    simp [mapOpt, hrb]
  unfold serialize
  rw [if_neg (by simp [hne]), htot]

/-- C2 (refuting the no-panic claim): serializing 8192 identical mergeable
`Write` commands makes `serialize` panic (the `assert!` in
`Write::byte_len`), rather than returning the oversized-block error value
the claim promises for every oversized input. -/
theorem c2_long_write_run_panics :
    serialize (List.replicate 8192 (Command.write ⟨Width.B4, WriteOp.Write, 0, 0⟩)) =
      SerResult.panic [] :=
  serialize_replicate_write_panics ⟨Width.B4, WriteOp.Write, 0, 0⟩ 8192 (by omega)

/-- C3 (refuting the oversized-error claim on this path): a command list
whose computed total `4 + (4 + 8192*8) = 65544` exceeds 65535 but consists
of a single mergeable write run panics instead of returning the
oversized-block error with an untouched sink. -/
theorem c3_oversized_write_run_panics_not_error :
    serialize (List.replicate 8192 (Command.write ⟨Width.B2, WriteOp.Write, 0, 0⟩)) =
      SerResult.panic [] :=
  serialize_replicate_write_panics ⟨Width.B2, WriteOp.Write, 0, 0⟩ 8192 (by omega)

end ImxrtDcd
